import Mathlib

/-!
# Verification of the RAG retrieval core

A shallow embedding, in Lean, of the retrieval subsystem of the
`rag-proj` repository: the text chunker (`app/services/text_processor.py`),
the NumPy-backed vector store (`app/services/vector_store.py`) and the
context assembly of the engine (`app/services/rag_engine.py`), together
with proofs and refutations of the specified properties.

Modelling conventions:
* Python strings handled character-wise are `List Char` (the code only
  exercises ASCII whitespace semantics).
* NumPy float entries are modelled as exact rationals `ℚ`; a cosine
  similarity value `n / sqrt d` is carried as the pair `(n, d)` and `NaN`
  as `none`, so every similarity computation stays executable.
* File-system state is a `Option DiskData` value threaded explicitly.
* `uuid4()` is modelled by an ambient supply of fresh id strings.
-/

namespace RagModel

/-! ## Chunker: `TextProcessor` -/

/-- Configuration of `TextProcessor` (`chunk_size`, `chunk_overlap`). -/
structure TextProcessor where
  chunkSize : Nat
  chunkOverlap : Nat
deriving DecidableEq

/-- Whitespace characters matched by Python's regex class and by
`str.strip()` in the ASCII range, which is all the source exercises. -/
def wsChar (c : Char) : Bool :=
  c == ' ' || c == '\t' || c == '\n' || c == '\r' || c == '\x0b' || c == '\x0c'

/-- Each maximal run of whitespace becomes a single space
(the first regex substitution in `clean_text`).  The flag records whether
the previous character belonged to a whitespace run. -/
def collapseWsAux : Bool → List Char → List Char
  | _, [] => []
  | inRun, c :: cs =>
    if wsChar c then
      if inRun then collapseWsAux true cs else ' ' :: collapseWsAux true cs
    else c :: collapseWsAux false cs

def collapseWs (l : List Char) : List Char := collapseWsAux false l

/-- Flush a pending run of `n` newline characters: runs of three or more
collapse to exactly two (second regex substitution in `clean_text`). -/
def nlFlush (n : Nat) : List Char :=
  if 3 ≤ n then ['\n', '\n'] else List.replicate n '\n'

def subNlAux : Nat → List Char → List Char
  | n, [] => nlFlush n
  | n, c :: cs =>
    if c = '\n' then subNlAux (n + 1) cs
    else nlFlush n ++ c :: subNlAux 0 cs

def subNl (l : List Char) : List Char := subNlAux 0 l

/-- Python `str.strip()`. -/
def stripChars (l : List Char) : List Char :=
  ((l.dropWhile wsChar).reverse.dropWhile wsChar).reverse

/-- `TextProcessor.clean_text`. -/
def cleanText (text : List Char) : List Char :=
  stripChars (subNl (collapseWs text))

/-- Python `text.split(sep)` for a non-empty separator, on character
lists.  `fuel` only bounds the recursion; it is initialised to the text
length, which always suffices because every step consumes at least one
character. -/
def splitOnAux (sep : List Char) : Nat → List Char → List Char → List (List Char)
  | _, acc, [] => [acc.reverse]
  | 0, acc, rest => [acc.reverse ++ rest]
  | fuel + 1, acc, c :: cs =>
    if sep.isPrefixOf (c :: cs) then
      acc.reverse :: splitOnAux sep fuel [] ((c :: cs).drop sep.length)
    else splitOnAux sep fuel (c :: acc) cs

def splitOnSep (sep text : List Char) : List (List Char) :=
  splitOnAux sep text.length [] text

/-- `self.separators`: paragraph break, line break, sentence end, space,
character-level fallback. -/
def separators : List (List Char) :=
  [['\n', '\n'], ['\n'], ['.', ' '], [' '], []]

/-- `TextProcessor._recursive_split`. -/
def recursiveSplit (tp : TextProcessor) : List (List Char) → List Char → List (List Char)
  | [], text => [text]
  | sep :: rest, text =>
    if sep.isEmpty then text.map (fun c => [c])
    else
      (splitOnSep sep text).flatMap fun s =>
        if s.length ≤ tp.chunkSize then [s] else recursiveSplit tp rest s

/-- The accumulation loop of `TextProcessor._merge_chunks`; the first
argument is `current_chunk`. -/
def mergeLoop (tp : TextProcessor) : List Char → List (List Char) → List (List Char)
  | current, [] => if current.isEmpty then [] else [current]
  | current, chunk :: rest =>
    let c := stripChars chunk
    if c.isEmpty then mergeLoop tp current rest
    else if current.length + c.length + 1 ≤ tp.chunkSize then
      mergeLoop tp (stripChars (current ++ ' ' :: c)) rest
    else
      (if current.isEmpty then [] else [current]) ++ mergeLoop tp c rest

/-- Python slice `s[-n:]`; note that for `n = 0` it is the whole string. -/
def takeLast (n : Nat) (l : List Char) : List Char :=
  if n = 0 then l else l.drop (l.length - n)

/-- The text prepended by `TextProcessor._add_overlap`: the last
`chunk_overlap` characters of the previous chunk; if that window does not
start with a space, everything up to and including the first space is
dropped — and when it has no space at all it is kept whole. -/
def overlapWindow (tp : TextProcessor) (prev : List Char) : List Char :=
  if (takeLast tp.chunkOverlap prev).head? = some ' ' then takeLast tp.chunkOverlap prev
  else
    match (takeLast tp.chunkOverlap prev).findIdx? (fun c => c == ' ') with
    | some i => (takeLast tp.chunkOverlap prev).drop (i + 1)
    | none => takeLast tp.chunkOverlap prev

/-- One overlapped chunk built by `TextProcessor._add_overlap`. -/
def overlapJoin (tp : TextProcessor) (prev cur : List Char) : List Char :=
  stripChars (overlapWindow tp prev ++ ' ' :: cur)

def addOverlapAux (tp : TextProcessor) : List Char → List (List Char) → List (List Char)
  | _, [] => []
  | prev, cur :: rest => overlapJoin tp prev cur :: addOverlapAux tp cur rest

/-- `TextProcessor._add_overlap`. -/
def addOverlap (tp : TextProcessor) (chunks : List (List Char)) : List (List Char) :=
  match chunks with
  | [] => []
  | c0 :: rest => c0 :: addOverlapAux tp c0 rest

/-- `TextProcessor._merge_chunks`. -/
def mergeChunks (tp : TextProcessor) (chunks : List (List Char)) : List (List Char) :=
  if chunks.isEmpty then []
  else
    let merged := mergeLoop tp [] chunks
    if 0 < tp.chunkOverlap ∧ 1 < merged.length then addOverlap tp merged else merged

/-- `TextProcessor.split_text`. -/
def splitText (tp : TextProcessor) (text : List Char) : List (List Char) :=
  let t := cleanText text
  if t.length ≤ tp.chunkSize then (if t.isEmpty then [] else [t])
  else mergeChunks tp (recursiveSplit tp separators t)

/-! ## Context assembly: `RAGEngine._build_context` -/

/-- The fixed default of `Settings.max_context_length`. -/
def defaultMaxContextLength : Nat := 2000

/-- The marker returned for an empty document list. -/
def noContextMarker : String := "No relevant context found."

/-- The marker appended after truncation. -/
def truncMarker : String := "..."

/-- The blank-line separator joining the enumerated items. -/
def blankLine : String := "\n\n"

/-- The loop of `_build_context` over `enumerate(documents, 1)`,
accumulating the `context_parts` entries. -/
def contextItems : Nat → List String → List String
  | _, [] => []
  | i, d :: ds => (r"[" ++ toString i ++ r"] " ++ d) :: contextItems (i + 1) ds

/-- `RAGEngine._build_context`, taking the retrieved contents and the
configured `max_context_length`. -/
def buildContext (maxContextLength : Nat) (documents : List String) : String :=
  if documents.isEmpty then noContextMarker
  else
    let context := String.intercalate blankLine (contextItems 1 documents)
    if maxContextLength < context.length then
      (context.take maxContextLength) ++ truncMarker
    else context

/-- Modelled from the spec: the enumerated list written independently via
an index zip, used to check `buildContext` against the spec wording. -/
def specContextItems (documents : List String) : List String :=
  (List.range documents.length).zipWith
    (fun i d => r"[" ++ toString (i + 1) ++ r"] " ++ d) documents

/-! ## Vector store: `VectorStore` -/

/-- Metadata dicts, modelled as string-keyed, string-valued association
lists (their contents are opaque to every store operation). -/
abbrev Meta := List (String × String)

/-- The exceptions the store operations can produce: NumPy's `ValueError`
and `VectorStoreError` from `app/core/exceptions.py`. -/
inductive StoreExn where
  | valueError : StoreExn
  | vectorStoreError : StoreExn
deriving DecidableEq

/-- In-memory state of `VectorStore`: the four parallel fields;
`embeddings` is `none` exactly when the Python field is `None`. -/
structure Store where
  documents : List String
  embeddings : Option (List (List ℚ))
  metadatas : List Meta
  ids : List String
deriving DecidableEq

def emptyStore : Store := ⟨[], none, [], []⟩

/-- Number of columns of a stacked embedding matrix. -/
def width (rows : List (List ℚ)) : Nat := (rows.head?.getD []).length

/-- `np.array(embeddings)`: a 2-D array when the nested list is
rectangular, `ValueError` on a ragged one. -/
def mkMatrix (rows : List (List ℚ)) : Except StoreExn (List (List ℚ)) :=
  if rows.all (fun r => r.length = width rows) then .ok rows else .error .valueError

/-- `np.vstack` of two rectangular stacks: `ValueError` when two non-empty
stacks disagree on the number of columns. -/
def vstack (old new : List (List ℚ)) : Except StoreExn (List (List ℚ)) :=
  if old.isEmpty || new.isEmpty || width old == width new then .ok (old ++ new)
  else .error .valueError

/-- `VectorStore.add_documents`.  `supply` models the stream of fresh
`uuid4()` strings drawn when `ids` is omitted. -/
def addDocuments (s : Store) (documents : List String) (embeddings : List (List ℚ))
    (metadatas : Option (List Meta)) (ids : Option (List String))
    (supply : List String) : Except StoreExn (Store × List String) :=
  if documents.isEmpty then .ok (s, [])
  else
    let theIds := ids.getD (supply.take documents.length)
    let theMetas := metadatas.getD (documents.map fun _ => ([] : Meta))
    match mkMatrix embeddings with
    | .error e => .error e
    | .ok newRows =>
      match s.embeddings with
      | none =>
        .ok ({ documents := s.documents ++ documents
               embeddings := some newRows
               metadatas := s.metadatas ++ theMetas
               ids := s.ids ++ theIds }, theIds)
      | some oldRows =>
        match vstack oldRows newRows with
        | .error e => .error e
        | .ok stacked =>
          .ok ({ documents := s.documents ++ documents
                 embeddings := some stacked
                 metadatas := s.metadatas ++ theMetas
                 ids := s.ids ++ theIds }, theIds)

/-- Dot product (`np.dot` on equal-length 1-D arrays). -/
def dot (a b : List ℚ) : ℚ := (List.zipWith (fun x y => x * y) a b).sum

/-- Squared Euclidean norm: `np.linalg.norm v = Real.sqrt (norm2 v)`. -/
def norm2 (v : List ℚ) : ℚ := dot v v

/-- One entry of the `similarities` array:
`dot(doc, query) / (norm(doc) * norm(query))`, carried exactly as the
pair `(numerator, square of the positive denominator)`.  `none` is IEEE
`NaN`, produced because the code divides by the norms unconditionally and
either norm can be zero.  (Zero-dimensional vectors are outside the
model's scope.) -/
def simEntry (q d : List ℚ) : Option (ℚ × ℚ) :=
  if norm2 d * norm2 q = 0 then none else some (dot d q, norm2 d * norm2 q)

/-- Decidable comparison of two exact similarity values `n / sqrt a` and
`m / sqrt b` by signs and squares; `simValLE_iff_real` below proves that
it agrees with the real-number order. -/
def simValLE (x y : ℚ × ℚ) : Bool :=
  if x.1 ≤ 0 ∧ 0 ≤ y.1 then true
  else if 0 ≤ x.1 ∧ 0 ≤ y.1 then x.1 ^ 2 * y.2 ≤ y.1 ^ 2 * x.2
  else if x.1 ≤ 0 ∧ y.1 ≤ 0 then y.1 ^ 2 * x.2 ≤ x.1 ^ 2 * y.2
  else false

/-- NumPy's sort places `NaN` after every number, so `none` is the top
element of the ascending order. -/
def simLE : Option (ℚ × ℚ) → Option (ℚ × ℚ) → Bool
  | none, none => true
  | none, some _ => false
  | some _, none => true
  | some x, some y => simValLE x y

/-- The `similarities` array of `search`. -/
def similarities (rows : List (List ℚ)) (q : List ℚ) : List (Option (ℚ × ℚ)) :=
  rows.map (simEntry q)

/-- Stable insertion of an index into an ascending index list. -/
def insertIdx (le : Nat → Nat → Bool) (i : Nat) : List Nat → List Nat
  | [] => [i]
  | j :: js => if le i j then i :: j :: js else j :: insertIdx le i js

/-- Stable ascending sort of an index list. -/
def sortIdx (le : Nat → Nat → Bool) : List Nat → List Nat
  | [] => []
  | i :: is => insertIdx le i (sortIdx le is)

/-- `np.argsort` on the similarity array.  NumPy's default quicksort
leaves the relative order of tied keys unspecified; the model uses a
stable ascending index sort so that the function stays executable.  No
general theorem below reads the tie order as a program guarantee; it is
relied on only when evaluating concrete two-element inputs, where
NumPy's actual sort computes the same order. -/
def argsort (sims : List (Option (ℚ × ℚ))) : List Nat :=
  sortIdx (fun i j => simLE (sims.getD i none) (sims.getD j none))
    (List.range sims.length)

/-- `np.argsort(similarities)[::-1][:top_k]`. -/
def topIndices (sims : List (Option (ℚ × ℚ))) (topK : Nat) : List Nat :=
  (argsort sims).reverse.take topK

/-- One element of the result list of `search`. -/
structure SearchResult where
  id : String
  content : String
  metadata : Meta
  score : Option (ℚ × ℚ)
deriving DecidableEq

/-- The result dict built for index `i` in the loop of `search`. -/
def resultAt (s : Store) (sims : List (Option (ℚ × ℚ))) (i : Nat) : SearchResult :=
  { id := s.ids.getD i (r"")
    content := s.documents.getD i (r"")
    metadata := s.metadatas.getD i []
    score := sims.getD i none }

/-- `VectorStore.search`. -/
def search (s : Store) (q : List ℚ) (topK : Nat) : List SearchResult :=
  match s.embeddings with
  | none => []
  | some rows =>
    if s.documents.length = 0 then []
    else (topIndices (similarities rows q) topK).map (resultAt s (similarities rows q))

/-- Contents of the persisted artifact (the `.npz` file plus the metadata
JSON file). -/
structure DiskData where
  embeddings : List (List ℚ)
  documents : List String
  ids : List String
  metadatas : List Meta
deriving DecidableEq

/-- `VectorStore.persist`: a no-op when there are no documents, otherwise
it replaces the artifact with the full in-memory state. -/
def persist (s : Store) (disk : Option DiskData) : Option DiskData :=
  if s.documents.isEmpty then disk
  else some ⟨s.embeddings.getD [], s.documents, s.ids, s.metadatas⟩

/-- `VectorStore._load` as run by the constructor of a fresh instance: an
absent artifact loads as the empty collection. -/
def load (disk : Option DiskData) : Store :=
  match disk with
  | none => emptyStore
  | some d => ⟨d.documents, some d.embeddings, d.metadatas, d.ids⟩

/-- The `document_count` field of `VectorStore.get_stats` (also
`VectorStore.count`). -/
def documentCount (s : Store) : Nat := s.documents.length

/-! ## Claim-side predicates -/

/-- Modelled from the spec (claim C5): `out` is a word-boundary-aligned
suffix of `prev` (a suffix preceded by a space, the whole of `prev`, or
the empty suffix) joined to `cur` with a single space. -/
def wordAlignedJoinB (prev cur out : List Char) : Bool :=
  (List.range (prev.length + 1)).any fun n =>
    (n == 0 || n == prev.length || prev.getD (n - 1) 'x' == ' ')
      && out == stripChars (prev.drop n ++ ' ' :: cur)

/-- A similarity value is well formed when its carried squared
denominator is positive; every value produced by `simEntry` is. -/
def SimOk (v : Option (ℚ × ℚ)) : Prop :=
  ∀ x : ℚ × ℚ, v = some x → 0 < x.2

/-- The invariant established along the stable ascending index sort:
keys ascend, and tied keys keep the original index order. -/
def StableLE (le : Nat → Nat → Bool) (i j : Nat) : Prop :=
  le i j = true ∧ (le j i = true → i < j)

end RagModel


namespace RagModel

/-! ## Chunker lemmas -/

theorem stripChars_length_le (l : List Char) : (stripChars l).length ≤ l.length := by
  unfold stripChars
  rw [List.length_reverse]
  calc ((l.dropWhile wsChar).reverse.dropWhile wsChar).length
      ≤ (l.dropWhile wsChar).reverse.length := (List.dropWhile_sublist wsChar).length_le
    _ = (l.dropWhile wsChar).length := List.length_reverse _
    _ ≤ l.length := (List.dropWhile_sublist wsChar).length_le

theorem collapseWsAux_true_of_ws (t : List Char) (h : ∀ c ∈ t, wsChar c = true) :
    collapseWsAux true t = [] := by
  induction t with
  | nil => rfl
  | cons c cs ih =>
    have hc := h c (List.mem_cons_self c cs)
    simp only [collapseWsAux, hc, if_pos, if_true]
    exact ih fun x hx => h x (List.mem_cons_of_mem _ hx)

theorem cleanText_of_ws (t : List Char) (h : ∀ c ∈ t, wsChar c = true) :
    cleanText t = [] := by
  unfold cleanText collapseWs
  cases t with
  | nil => rfl
  | cons c cs =>
    have hc := h c (List.mem_cons_self c cs)
    have hrest : collapseWsAux true cs = []
      := collapseWsAux_true_of_ws cs fun x hx => h x (List.mem_cons_of_mem _ hx)
    have hcol : collapseWsAux false (c :: cs) = [' '] := by
      simp [collapseWsAux, hc, hrest]
    rw [hcol]
    decide

/-- C8: an input whose normalisation fits in `chunk_size` yields exactly
the normalisation as the sole chunk (or no chunk when it is empty), and
whitespace-only input yields no chunks and no failure. -/
theorem c8_small_input (tp : TextProcessor) (t : List Char) :
    ((cleanText t).length ≤ tp.chunkSize →
      splitText tp t = if (cleanText t).isEmpty then [] else [cleanText t])
    ∧ ((∀ c ∈ t, wsChar c = true) → splitText tp t = []) := by
  constructor
  · intro h
    simp only [splitText]
    rw [if_pos h]
  · intro hws
    have hc : cleanText t = [] := cleanText_of_ws t hws
    simp only [splitText, hc]
    simp

/-- C8 witness: concrete small and whitespace-only inputs. -/
theorem c8_small_input_witness :
    splitText ⟨10, 2⟩ ((r"  hi  ").toList) = [['h', 'i']]
      ∧ splitText ⟨10, 2⟩ [' ', '\t'] = [] := by
  constructor
  · have h := (c8_small_input ⟨10, 2⟩ ((r"  hi  ").toList)).1 (by decide)
    rw [h]; decide
  · exact (c8_small_input ⟨10, 2⟩ [' ', '\t']).2 (by decide)

theorem takeLast_length_le (n : Nat) (l : List Char) (h : n ≠ 0) :
    (takeLast n l).length ≤ n := by
  unfold takeLast
  rw [if_neg h, List.length_drop]
  omega

theorem overlapWindow_shape (tp : TextProcessor) (prev : List Char) :
    overlapWindow tp prev = takeLast tp.chunkOverlap prev
    ∨ ∃ i, overlapWindow tp prev = (takeLast tp.chunkOverlap prev).drop (i + 1) := by
  unfold overlapWindow
  split_ifs with h
  · left; rfl
  · cases hidx : (takeLast tp.chunkOverlap prev).findIdx? (fun c => c == ' ') with
    | none => simp only [hidx]; left; trivial
    | some i => simp only [hidx]; right; exact ⟨i, rfl⟩

theorem overlapWindow_length_le (tp : TextProcessor) (prev : List Char)
    (hov : 0 < tp.chunkOverlap) :
    (overlapWindow tp prev).length ≤ tp.chunkOverlap := by
  have hbase := takeLast_length_le tp.chunkOverlap prev (by omega)
  rcases overlapWindow_shape tp prev with h | ⟨i, h⟩
  · rw [h]; exact hbase
  · rw [h, List.length_drop]; omega

theorem overlapJoin_length_le (tp : TextProcessor) (prev cur : List Char)
    (hov : 0 < tp.chunkOverlap) (hcur : cur.length ≤ tp.chunkSize) :
    (overlapJoin tp prev cur).length ≤ tp.chunkSize + tp.chunkOverlap + 1 := by
  unfold overlapJoin
  have h1 := stripChars_length_le (overlapWindow tp prev ++ ' ' :: cur)
  have h2 := overlapWindow_length_le tp prev hov
  rw [List.length_append, List.length_cons] at h1
  omega

theorem addOverlapAux_bound (tp : TextProcessor) (hov : 0 < tp.chunkOverlap) :
    ∀ (rest : List (List Char)) (prev : List Char),
      (∀ c ∈ rest, c.length ≤ tp.chunkSize) →
      ∀ o ∈ addOverlapAux tp prev rest, o.length ≤ tp.chunkSize + tp.chunkOverlap + 1 := by
  intro rest
  induction rest with
  | nil => intro prev _ o ho; simp [addOverlapAux] at ho
  | cons cur rest ih =>
    intro prev hall o ho
    simp only [addOverlapAux, List.mem_cons] at ho
    rcases ho with rfl | ho
    · exact overlapJoin_length_le tp prev cur hov (hall cur (List.mem_cons_self _ _))
    · exact ih cur (fun c hc => hall c (List.mem_cons_of_mem _ hc)) o ho

theorem addOverlap_bound (tp : TextProcessor) (chunks : List (List Char))
    (hov : 0 < tp.chunkOverlap) (h : ∀ c ∈ chunks, c.length ≤ tp.chunkSize) :
    ∀ o ∈ addOverlap tp chunks, o.length ≤ tp.chunkSize + tp.chunkOverlap + 1 := by
  cases chunks with
  | nil => intro o ho; simp [addOverlap] at ho
  | cons c0 rest =>
    intro o ho
    simp only [addOverlap, List.mem_cons] at ho
    rcases ho with rfl | ho
    · have := h o (List.mem_cons_self _ _); omega
    · exact addOverlapAux_bound tp hov rest c0
        (fun c hc => h c (List.mem_cons_of_mem _ hc)) o ho

theorem mergeLoop_bound (tp : TextProcessor) (chunks : List (List Char)) :
    ∀ current : List Char, current.length ≤ tp.chunkSize →
      (∀ c ∈ chunks, (stripChars c).length ≤ tp.chunkSize) →
      ∀ m ∈ mergeLoop tp current chunks, m.length ≤ tp.chunkSize := by
  induction chunks with
  | nil =>
    intro current hcur _ m hm
    unfold mergeLoop at hm
    split_ifs at hm with he
    · simp at hm
    · simp at hm; subst hm; exact hcur
  | cons chunk rest ih =>
    intro current hcur hall m hm
    have hchunk := hall chunk (List.mem_cons_self _ _)
    have hrest : ∀ c ∈ rest, (stripChars c).length ≤ tp.chunkSize :=
      fun c hc => hall c (List.mem_cons_of_mem _ hc)
    simp only [mergeLoop] at hm
    split_ifs at hm with h1 h2 h3
    · exact ih current hcur hrest m hm
    · refine ih (stripChars (current ++ ' ' :: stripChars chunk)) ?_ hrest m hm
      have := stripChars_length_le (current ++ ' ' :: stripChars chunk)
      rw [List.length_append, List.length_cons] at this
      omega
    · rw [List.nil_append] at hm
      exact ih (stripChars chunk) hchunk hrest m hm
    · rw [List.singleton_append, List.mem_cons] at hm
      rcases hm with rfl | hm
      · exact hcur
      · exact ih (stripChars chunk) hchunk hrest m hm

theorem mergeChunks_bound (tp : TextProcessor) (chunks : List (List Char))
    (h : ∀ c ∈ chunks, (stripChars c).length ≤ tp.chunkSize) :
    ∀ m ∈ mergeChunks tp chunks, m.length ≤ tp.chunkSize + tp.chunkOverlap + 1 := by
  intro m hm
  simp only [mergeChunks] at hm
  split_ifs at hm with h0 h1
  · simp at hm
  · exact addOverlap_bound tp _ h1.1
      (mergeLoop_bound tp chunks [] (by simp) h) m hm
  · have := mergeLoop_bound tp chunks [] (by simp) h m hm
    omega

/-- C4 amended: when every atomic separator-split unit fits in
`chunk_size`, every chunk of `split_text` is bounded by
`chunk_size + chunk_overlap + 1`; the overlap step can push a chunk past
`chunk_size` itself, so the claimed `chunk_size` bound fails. -/
theorem c4_amended (tp : TextProcessor) (text : List Char)
    (h : ∀ u ∈ recursiveSplit tp separators (cleanText text),
        (stripChars u).length ≤ tp.chunkSize) :
    ∀ c ∈ splitText tp text, c.length ≤ tp.chunkSize + tp.chunkOverlap + 1 := by
  intro c hc
  simp only [splitText] at hc
  split_ifs at hc with hlen he
  · simp at hc
  · simp at hc; subst hc; omega
  · exact mergeChunks_bound tp _ h c hc

/-- C4 witness: the amended bound evaluated at a concrete input. -/
theorem c4_amended_witness : ((r"bbbb cccc dddd").toList).length ≤ 10 + 5 + 1 :=
  c4_amended ⟨10, 5⟩ ((r"aaaa bbbb cccc dddd").toList) (by decide)
    ((r"bbbb cccc dddd").toList) (by decide)

/-- C4 counterexample: every atomic unit of the recursive split has
length 4, yet the second produced chunk has length 14 > chunk_size = 10,
because the overlap step lengthens it. -/
theorem c4_counterexample :
    recursiveSplit ⟨10, 5⟩ separators (cleanText ((r"aaaa bbbb cccc dddd").toList))
        = [(r"aaaa").toList, (r"bbbb").toList, (r"cccc").toList, (r"dddd").toList]
    ∧ ((recursiveSplit ⟨10, 5⟩ separators (cleanText ((r"aaaa bbbb cccc dddd").toList))).all
        fun u => decide ((stripChars u).length ≤ 10)) = true
    ∧ splitText ⟨10, 5⟩ ((r"aaaa bbbb cccc dddd").toList)
        = [(r"aaaa bbbb").toList, (r"bbbb cccc dddd").toList]
    ∧ ((r"bbbb cccc dddd").toList).length = 14 := by
  refine ⟨by decide, by decide, by decide, by decide⟩

end RagModel

namespace RagModel

/-! ## Overlap indexing lemmas (claim C5) -/

theorem addOverlapAux_getD (tp : TextProcessor) :
    ∀ (rest : List (List Char)) (prev : List Char) (i : Nat), i < rest.length →
      (addOverlapAux tp prev rest).getD i []
        = overlapJoin tp ((prev :: rest).getD i []) (rest.getD i []) := by
  intro rest
  induction rest with
  | nil => intro prev i h; simp at h
  | cons cur rest ih =>
    intro prev i h
    cases i with
    | zero => rfl
    | succ i =>
      simp only [addOverlapAux, List.getD_cons_succ]
      exact ih cur i (by simpa using h)

theorem addOverlap_length (tp : TextProcessor) (chunks : List (List Char)) :
    (addOverlap tp chunks).length = chunks.length := by
  cases chunks with
  | nil => rfl
  | cons c0 rest =>
    have haux : ∀ (r : List (List Char)) (p : List Char),
        (addOverlapAux tp p r).length = r.length := by
      intro r
      induction r with
      | nil => intro p; rfl
      | cons c r ihr => intro p; simp [addOverlapAux, ihr]
    simp [addOverlap, haux]

theorem findIdx?_some_getD (p : Char → Bool) :
    ∀ (l : List Char) (j : Nat), l.findIdx? p = some j → p (l.getD j 'x') = true := by
  intro l
  induction l with
  | nil => intro j h; simp at h
  | cons c cs ih =>
    intro j h
    rw [List.findIdx?_cons] at h
    by_cases hc : p c
    · rw [if_pos hc] at h
      cases h
      exact hc
    · rw [if_neg hc, List.findIdx?_succ] at h
      cases hmm : cs.findIdx? p with
      | none => rw [hmm] at h; simp at h
      | some j' =>
        rw [hmm] at h
        cases h
        simpa using ih j' hmm

/-- C5 amended: each output chunk after the first equals the previous
pre-overlap chunk's overlap window joined to the current pre-overlap
chunk with a single space (then stripped); the window is a suffix of the
last `chunk_overlap` characters of the previous chunk, and it is
word-boundary aligned exactly when that character window contains a
space that is not at its start — when the window has no space, the code
keeps the partial leading word instead of dropping it. -/
theorem c5_amended (tp : TextProcessor) (chunks : List (List Char)) (i : Nat)
    (h : i + 1 < chunks.length) :
    (addOverlap tp chunks).getD (i + 1) []
        = overlapJoin tp (chunks.getD i []) (chunks.getD (i + 1) [])
    ∧ overlapWindow tp (chunks.getD i []) <:+ takeLast tp.chunkOverlap (chunks.getD i [])
    ∧ ((takeLast tp.chunkOverlap (chunks.getD i [])).head? ≠ some ' ' →
        ∀ j, (takeLast tp.chunkOverlap (chunks.getD i [])).findIdx? (fun c => c == ' ') = some j →
          (takeLast tp.chunkOverlap (chunks.getD i [])).getD j 'x' = ' '
          ∧ overlapWindow tp (chunks.getD i [])
              = (takeLast tp.chunkOverlap (chunks.getD i [])).drop (j + 1)) := by
  refine ⟨?_, ?_, ?_⟩
  · cases chunks with
    | nil => simp at h
    | cons c0 rest =>
      have h' : i < rest.length := by simpa using h
      simp only [addOverlap, List.getD_cons_succ]
      rw [addOverlapAux_getD tp rest c0 i h']
  · rcases overlapWindow_shape tp (chunks.getD i []) with hs | ⟨j, hs⟩
    · rw [hs]
    · rw [hs]; exact List.drop_suffix _ _

  · intro hhead j hfind
    constructor
    · have := findIdx?_some_getD (fun c => c == ' ') _ j hfind
      simpa using this
    · unfold overlapWindow
      rw [if_neg hhead, hfind]

/-- C5 witness: the amended per-index equation at a concrete input. -/
theorem c5_amended_witness :
    (addOverlap ⟨8, 3⟩ [(r"aaaaaa").toList, (r"bbbbbb").toList]).getD 1 []
      = overlapJoin ⟨8, 3⟩ ((r"aaaaaa").toList) ((r"bbbbbb").toList) :=
  (c5_amended ⟨8, 3⟩ [(r"aaaaaa").toList, (r"bbbbbb").toList] 0 (by decide)).1

/-- C5 counterexample: with `chunk_size = 8`, `chunk_overlap = 3`, the
overlap window of the first merged chunk contains no space, so the code
prepends the mid-word fragment whole: the second output chunk starts
with no word-boundary-aligned suffix of the previous pre-overlap chunk. -/
theorem c5_counterexample :
    splitText ⟨8, 3⟩ ((r"aaaaaa bbbbbb").toList)
        = [(r"aaaaaa").toList, (r"aaa bbbbbb").toList]
    ∧ mergeLoop ⟨8, 3⟩ [] (recursiveSplit ⟨8, 3⟩ separators (cleanText ((r"aaaaaa bbbbbb").toList)))
        = [(r"aaaaaa").toList, (r"bbbbbb").toList]
    ∧ wordAlignedJoinB ((r"aaaaaa").toList) ((r"bbbbbb").toList) ((r"aaa bbbbbb").toList)
        = false := by
  refine ⟨by decide, by decide, by decide⟩

end RagModel

namespace RagModel

/-! ## Context assembly lemmas (claim C6) -/

theorem contextItems_eq_zipWith (docs : List String) : ∀ i : Nat,
    contextItems i docs
      = (List.range docs.length).zipWith
          (fun k d => r"[" ++ toString (i + k) ++ r"] " ++ d) docs := by
  induction docs with
  | nil => intro i; rfl
  | cons d ds ih =>
    intro i
    rw [List.length_cons, List.range_succ_eq_map, List.zipWith_cons_cons,
      List.zipWith_map_left]
    have hfun : (fun (k : Nat) (x : String) => r"[" ++ toString (i + Nat.succ k) ++ r"] " ++ x)
        = fun (k : Nat) (x : String) => r"[" ++ toString (i + 1 + k) ++ r"] " ++ x := by
      funext k x
      have hk : i + Nat.succ k = i + 1 + k := by omega
      rw [hk]
    show (r"[" ++ toString i ++ r"] " ++ d) :: contextItems (i + 1) ds
        = (r"[" ++ toString (i + 0) ++ r"] " ++ d)
          :: List.zipWith (fun k x => r"[" ++ toString (i + Nat.succ k) ++ r"] " ++ x)
              (List.range ds.length) ds
    rw [Nat.add_zero]
    congr 1
    rw [ih (i + 1), hfun]

/-- C6: `_build_context` formats the chunks as an enumerated list joined
by blank lines, substitutes the fixed marker for an empty list, and cuts
the result at `max_context_length` (default 2000), appending the
truncation marker when cut. -/
theorem c6_build_context (maxContextLength : Nat) (documents : List String) :
    defaultMaxContextLength = 2000
    ∧ buildContext maxContextLength documents
      = (if documents.isEmpty then noContextMarker
         else if maxContextLength
              < (String.intercalate blankLine (specContextItems documents)).length
           then (String.intercalate blankLine (specContextItems documents)).take
                  maxContextLength ++ truncMarker
           else String.intercalate blankLine (specContextItems documents)) := by
  have hspec : specContextItems documents = contextItems 1 documents := by
    unfold specContextItems
    rw [contextItems_eq_zipWith documents 1]
    have hfun : (fun (i : Nat) (d : String) => r"[" ++ toString (i + 1) ++ r"] " ++ d)
        = fun (k : Nat) (d : String) => r"[" ++ toString (1 + k) ++ r"] " ++ d := by
      funext k x
      have hk : k + 1 = 1 + k := by omega
      rw [hk]
    rw [hfun]
  refine ⟨rfl, ?_⟩
  rw [hspec]
  rfl

end RagModel

namespace RagModel

/-! ## Similarity order: agreement with the real-number order -/

theorem norm2_nonneg (v : List ℚ) : 0 ≤ norm2 v := by
  unfold norm2 dot
  induction v with
  | nil => simp
  | cons x v ih =>
    rw [List.zipWith_cons_cons, List.sum_cons]
    nlinarith [mul_self_nonneg x, ih]

theorem simOk_simEntry (q d : List ℚ) : SimOk (simEntry q d) := by
  unfold simEntry SimOk
  split_ifs with h
  · intro x hx; simp at hx
  · intro x hx
    cases hx
    have hge : 0 ≤ norm2 d * norm2 q := mul_nonneg (norm2_nonneg d) (norm2_nonneg q)
    exact lt_of_le_of_ne hge (Ne.symm h)

theorem similarities_simOk (rows : List (List ℚ)) (q : List ℚ) (i : Nat) :
    SimOk ((similarities rows q).getD i none) := by
  have hmem : ∀ v ∈ similarities rows q, SimOk v := by
    intro v hv
    rcases List.mem_map.mp hv with ⟨d, _, rfl⟩
    exact simOk_simEntry q d
  rw [List.getD_eq_getElem?_getD]
  cases hx : (similarities rows q)[i]? with
  | none => intro x hx; simp at hx
  | some v => exact hmem v (List.getElem?_mem hx)

theorem simValLE_iff_real (n1 a n2 b : ℚ) (ha : 0 < a) (hb : 0 < b) :
    simValLE (n1, a) (n2, b) = true
      ↔ (n1 : ℝ) / Real.sqrt (a : ℝ) ≤ (n2 : ℝ) / Real.sqrt (b : ℝ) := by
  have ha' : (0 : ℝ) < (a : ℝ) := by exact_mod_cast ha
  have hb' : (0 : ℝ) < (b : ℝ) := by exact_mod_cast hb
  have sa : (0 : ℝ) < Real.sqrt (a : ℝ) := Real.sqrt_pos.mpr ha'
  have sb : (0 : ℝ) < Real.sqrt (b : ℝ) := Real.sqrt_pos.mpr hb'
  have sa2 : Real.sqrt (a : ℝ) * Real.sqrt (a : ℝ) = (a : ℝ) := Real.mul_self_sqrt ha'.le
  have sb2 : Real.sqrt (b : ℝ) * Real.sqrt (b : ℝ) = (b : ℝ) := Real.mul_self_sqrt hb'.le
  rw [div_le_div_iff₀ sa sb]
  unfold simValLE
  split_ifs with h1 h2 h3
  · constructor
    · intro _
      have h1l : (n1 : ℝ) ≤ 0 := by exact_mod_cast h1.1
      have h1r : (0 : ℝ) ≤ (n2 : ℝ) := by exact_mod_cast h1.2
      have k1 : (n1 : ℝ) * Real.sqrt (b : ℝ) ≤ 0 :=
        mul_nonpos_of_nonpos_of_nonneg h1l sb.le
      have k2 : (0 : ℝ) ≤ (n2 : ℝ) * Real.sqrt (a : ℝ) := mul_nonneg h1r sa.le
      linarith
    · intro _; rfl
  · have hn1 : (0 : ℝ) ≤ (n1 : ℝ) := by exact_mod_cast h2.1
    have hn2 : (0 : ℝ) ≤ (n2 : ℝ) := by exact_mod_cast h2.2
    rw [decide_eq_true_iff]
    constructor
    · intro hq
      have hr : (n1 : ℝ) ^ 2 * (b : ℝ) ≤ (n2 : ℝ) ^ 2 * (a : ℝ) := by exact_mod_cast hq
      apply nonneg_le_nonneg_of_sq_le_sq (mul_nonneg hn2 sa.le)
      nlinarith [sa2, sb2, hr]
    · intro hrle
      have hsq := mul_self_le_mul_self (mul_nonneg hn1 sb.le) hrle
      have hr : (n1 : ℝ) ^ 2 * (b : ℝ) ≤ (n2 : ℝ) ^ 2 * (a : ℝ) := by
        nlinarith [sa2, sb2, hsq]
      exact_mod_cast hr
  · have hn1 : (n1 : ℝ) ≤ 0 := by exact_mod_cast h3.1
    have hn2 : (n2 : ℝ) ≤ 0 := by exact_mod_cast h3.2
    rw [decide_eq_true_iff]
    constructor
    · intro hq
      have hr : (n2 : ℝ) ^ 2 * (a : ℝ) ≤ (n1 : ℝ) ^ 2 * (b : ℝ) := by exact_mod_cast hq
      have key : (-(n2 : ℝ)) * Real.sqrt (a : ℝ) ≤ (-(n1 : ℝ)) * Real.sqrt (b : ℝ) := by
        apply nonneg_le_nonneg_of_sq_le_sq (mul_nonneg (by linarith) sb.le)
        nlinarith [sa2, sb2, hr]
      linarith
    · intro hrle
      have key : (-(n2 : ℝ)) * Real.sqrt (a : ℝ) ≤ (-(n1 : ℝ)) * Real.sqrt (b : ℝ) := by
        linarith
      have hsq := mul_self_le_mul_self (mul_nonneg (by linarith : (0:ℝ) ≤ -(n2 : ℝ)) sa.le) key
      have hr : (n2 : ℝ) ^ 2 * (a : ℝ) ≤ (n1 : ℝ) ^ 2 * (b : ℝ) := by
        nlinarith [sa2, sb2, hsq]
      exact_mod_cast hr
  · have hn1pos : 0 < n1 := by
      by_contra hn
      push_neg at hn
      rcases le_or_lt 0 n2 with hc | hc
      · exact h1 ⟨hn, hc⟩
      · exact h3 ⟨hn, hc.le⟩
    have hn2neg : n2 < 0 := by
      by_contra hn
      push_neg at hn
      exact h2 ⟨hn1pos.le, hn⟩
    have hn1' : (0 : ℝ) < (n1 : ℝ) := by exact_mod_cast hn1pos
    have hn2' : (n2 : ℝ) < 0 := by exact_mod_cast hn2neg
    constructor
    · intro hf; simp at hf
    · intro hr
      exfalso
      have k1 : (0 : ℝ) < (n1 : ℝ) * Real.sqrt (b : ℝ) := mul_pos hn1' sb
      have k2 : (n2 : ℝ) * Real.sqrt (a : ℝ) < 0 := mul_neg_of_neg_of_pos hn2' sa
      linarith

theorem simLE_refl (v : Option (ℚ × ℚ)) (h : SimOk v) : simLE v v = true := by
  cases v with
  | none => rfl
  | some x =>
    obtain ⟨n, a⟩ := x
    have ha := h (n, a) rfl
    show simValLE (n, a) (n, a) = true
    rw [simValLE_iff_real n a n a ha ha]

theorem simLE_trans (u v w : Option (ℚ × ℚ)) (hu : SimOk u) (hv : SimOk v) (hw : SimOk w)
    (h1 : simLE u v = true) (h2 : simLE v w = true) : simLE u w = true := by
  cases w with
  | none => cases u <;> rfl
  | some z =>
    cases v with
    | none => simp [simLE] at h2
    | some y =>
      cases u with
      | none => simp [simLE] at h1
      | some x =>
        obtain ⟨n1, a⟩ := x
        obtain ⟨n2, b⟩ := y
        obtain ⟨n3, c⟩ := z
        have ha := hu (n1, a) rfl
        have hb := hv (n2, b) rfl
        have hc := hw (n3, c) rfl
        show simValLE (n1, a) (n3, c) = true
        have h1' : simValLE (n1, a) (n2, b) = true := h1
        have h2' : simValLE (n2, b) (n3, c) = true := h2
        rw [simValLE_iff_real n1 a n2 b ha hb] at h1'
        rw [simValLE_iff_real n2 b n3 c hb hc] at h2'
        rw [simValLE_iff_real n1 a n3 c ha hc]
        exact le_trans h1' h2'

theorem simLE_total (u v : Option (ℚ × ℚ)) (hu : SimOk u) (hv : SimOk v) :
    simLE u v = true ∨ simLE v u = true := by
  cases u with
  | none => right; cases v <;> rfl
  | some x =>
    cases v with
    | none => left; rfl
    | some y =>
      obtain ⟨n1, a⟩ := x
      obtain ⟨n2, b⟩ := y
      have ha := hu (n1, a) rfl
      have hb := hv (n2, b) rfl
      have hx : simLE (some (n1, a)) (some (n2, b)) = simValLE (n1, a) (n2, b) := rfl
      have hy : simLE (some (n2, b)) (some (n1, a)) = simValLE (n2, b) (n1, a) := rfl
      rw [hx, hy, simValLE_iff_real n1 a n2 b ha hb, simValLE_iff_real n2 b n1 a hb ha]
      exact le_total _ _

end RagModel

namespace RagModel

/-! ## Stable index sort -/

theorem insertIdx_perm (le : Nat → Nat → Bool) (i : Nat) (l : List Nat) :
    List.Perm (insertIdx le i l) (i :: l) := by
  induction l with
  | nil => exact List.Perm.refl _
  | cons j js ih =>
    unfold insertIdx
    split_ifs with h
    · exact List.Perm.refl _
    · exact (ih.cons j).trans (List.Perm.swap i j js)

theorem sortIdx_perm (le : Nat → Nat → Bool) (l : List Nat) : List.Perm (sortIdx le l) l := by
  induction l with
  | nil => exact List.Perm.refl _
  | cons i is ih =>
    exact (insertIdx_perm le i (sortIdx le is)).trans (ih.cons i)

theorem pairwise_insertIdx (le : Nat → Nat → Bool)
    (htrans : ∀ a b c, le a b = true → le b c = true → le a c = true)
    (htotal : ∀ a b, le a b = true ∨ le b a = true)
    (i : Nat) (l : List Nat) (hl : l.Pairwise (StableLE le)) (hless : ∀ j ∈ l, i < j) :
    (insertIdx le i l).Pairwise (StableLE le) := by
  induction l with
  | nil => simp [insertIdx, StableLE]
  | cons j js ih =>
    rcases List.pairwise_cons.mp hl with ⟨hj, hjs⟩
    unfold insertIdx
    split_ifs with h
    · apply List.pairwise_cons.mpr
      refine ⟨?_, hl⟩
      intro z hz
      rcases List.mem_cons.mp hz with rfl | hz
      · exact ⟨h, fun _ => hless z (List.mem_cons_self _ _)⟩
      · exact ⟨htrans i j z h (hj z hz).1, fun _ => hless z (List.mem_cons_of_mem _ hz)⟩
    · apply List.pairwise_cons.mpr
      constructor
      · intro z hz
        have hz' : z = i ∨ z ∈ js := by
          have hmem := (insertIdx_perm le i js).mem_iff.mp hz
          simpa using hmem
        rcases hz' with rfl | hz'
        · rcases htotal j z with hji | hij
          · exact ⟨hji, fun hij => absurd hij h⟩
          · exact absurd hij h
        · exact hj z hz'
      · exact ih hjs fun z hz => hless z (List.mem_cons_of_mem _ hz)

theorem pairwise_sortIdx (le : Nat → Nat → Bool)
    (htrans : ∀ a b c, le a b = true → le b c = true → le a c = true)
    (htotal : ∀ a b, le a b = true ∨ le b a = true)
    (l : List Nat) (hl : l.Pairwise (· < ·)) :
    (sortIdx le l).Pairwise (StableLE le) := by
  induction l with
  | nil => simp [sortIdx]
  | cons i is ih =>
    rcases List.pairwise_cons.mp hl with ⟨hi, his⟩
    unfold sortIdx
    apply pairwise_insertIdx le htrans htotal i _ (ih his)
    intro j hj
    exact hi j ((sortIdx_perm le is).mem_iff.mp hj)

theorem argsort_perm (sims : List (Option (ℚ × ℚ))) :
    List.Perm (argsort sims) (List.range sims.length) :=
  sortIdx_perm _ _

theorem argsort_pairwise (rows : List (List ℚ)) (q : List ℚ) :
    (argsort (similarities rows q)).Pairwise
      (StableLE fun i j =>
        simLE ((similarities rows q).getD i none) ((similarities rows q).getD j none)) := by
  apply pairwise_sortIdx
  · intro x y z h1 h2
    exact simLE_trans _ _ _ (similarities_simOk rows q x) (similarities_simOk rows q y)
      (similarities_simOk rows q z) h1 h2
  · intro x y
    exact simLE_total _ _ (similarities_simOk rows q x) (similarities_simOk rows q y)
  · exact List.pairwise_lt_range _

theorem topIndices_pairwise (rows : List (List ℚ)) (q : List ℚ) (k : Nat) :
    (topIndices (similarities rows q) k).Pairwise
      (fun i j => StableLE (fun i j =>
          simLE ((similarities rows q).getD i none) ((similarities rows q).getD j none)) j i) := by
  unfold topIndices
  apply List.Pairwise.take
  exact List.pairwise_reverse.mpr (argsort_pairwise rows q)

end RagModel

namespace RagModel

/-- C3 amended: `search` returns the `top_k` highest-scoring records in
descending score order, and every omitted record scores no higher than
every returned one; the claimed insertion-order tie-breaking is not
guaranteed — the code reverses an ascending `np.argsort`, whose default
quicksort fixes no tie order at all, and at the two-record
counterexample the tied records come back in reverse insertion order. -/
theorem c3_amended (s : Store) (rows : List (List ℚ)) (q : List ℚ) (k : Nat)
    (hemb : s.embeddings = some rows) (hne : s.documents.length ≠ 0) :
    search s q k
        = (topIndices (similarities rows q) k).map (resultAt s (similarities rows q))
    ∧ ((search s q k).map fun r => r.score).Pairwise (fun a b => simLE b a = true)
    ∧ (∀ j, j < rows.length → j ∉ topIndices (similarities rows q) k →
        ∀ i ∈ topIndices (similarities rows q) k,
          simLE ((similarities rows q).getD j none) ((similarities rows q).getD i none) = true)
    ∧ (search s q k).length = min k rows.length := by
  have hsearch : search s q k
      = (topIndices (similarities rows q) k).map (resultAt s (similarities rows q)) := by
    unfold search
    simp only [hemb]
    rw [if_neg hne]
  refine ⟨hsearch, ?_, ?_, ?_⟩
  · rw [hsearch, List.map_map]
    rw [List.pairwise_map]
    refine List.Pairwise.imp ?_ (topIndices_pairwise rows q k)
    intro i j hp
    exact hp.1
  · intro j hj hnot i hi
    have hpw : ((argsort (similarities rows q)).reverse.take k
          ++ (argsort (similarities rows q)).reverse.drop k).Pairwise
        (fun i j => StableLE (fun i j =>
            simLE ((similarities rows q).getD i none)
              ((similarities rows q).getD j none)) j i) := by
      rw [List.take_append_drop]
      exact List.pairwise_reverse.mpr (argsort_pairwise rows q)
    have hcross := (List.pairwise_append.mp hpw).2.2
    have hjrev : j ∈ (argsort (similarities rows q)).reverse := by
      rw [List.mem_reverse, (argsort_perm _).mem_iff, List.mem_range,
        similarities, List.length_map]
      exact hj
    have hjsplit : j ∈ (argsort (similarities rows q)).reverse.take k
        ∨ j ∈ (argsort (similarities rows q)).reverse.drop k := by
      rw [← List.mem_append, List.take_append_drop]
      exact hjrev
    rcases hjsplit with hcase | hcase
    · exact absurd hcase hnot
    · exact (hcross i hi j hcase).1
  · rw [hsearch, List.length_map]
    unfold topIndices
    rw [List.length_take, List.length_reverse, (argsort_perm _).length_eq,
      List.length_range, similarities, List.length_map]

/-- C3 witness: the amended theorem applied at a one-record store. -/
theorem c3_amended_witness :
    (search ⟨[r"a"], some [[1]], [[]], [r"ia"]⟩ [1] 1).length = min 1 1 :=
  (c3_amended ⟨[r"a"], some [[1]], [[]], [r"ia"]⟩ [[1]] [1] 1 rfl (by decide)).2.2.2

/-- C3 counterexample: two records with identical embeddings (hence tied
scores) are returned in reverse insertion order, refuting the claimed
insertion-order tie-breaking. -/
theorem c3_counterexample :
    search ⟨[r"a", r"b"], some [[1], [1]], [[], []], [r"ia", r"ib"]⟩ [1] 2
      = [⟨r"ib", r"b", [], some (1, 1)⟩, ⟨r"ia", r"a", [], some (1, 1)⟩] := by
  norm_num [search, similarities, simEntry, norm2, dot, topIndices, argsort,
    sortIdx, insertIdx, simLE, simValLE, resultAt]

/-- C7: `search` on an empty collection returns the empty list for every
`top_k`, and `top_k` at least the collection size returns all records. -/
theorem c7_empty_and_topk (s : Store) (q : List ℚ) (k : Nat) :
    ((s.embeddings = none ∨ s.documents = []) → search s q k = [])
    ∧ (∀ rows, s.embeddings = some rows → rows.length = s.documents.length →
        s.documents.length ≤ k →
        (search s q k).length = s.documents.length
        ∧ List.Perm (search s q k)
            ((List.range s.documents.length).map (resultAt s (similarities rows q)))) := by
  constructor
  · intro h
    rcases h with h | h
    · unfold search
      rw [h]
    · unfold search
      cases hemb : s.embeddings with
      | none => rfl
      | some rows => simp [h]
  · intro rows hemb hlen hk
    have hsimlen : (similarities rows q).length = rows.length := List.length_map _ _
    have hperm : List.Perm (topIndices (similarities rows q) k)
        (List.range s.documents.length) := by
      unfold topIndices
      rw [List.take_of_length_le]
      · refine ((List.reverse_perm _).trans (argsort_perm _)).trans ?_
        rw [hsimlen, hlen]
      · rw [List.length_reverse, (argsort_perm _).length_eq, List.length_range, hsimlen]
        omega
    by_cases hd : s.documents.length = 0
    · have hrows0 : rows.length = 0 := by omega
      constructor
      · unfold search
        simp only [hemb]
        rw [if_pos hd, hd]
        rfl
      · unfold search
        simp only [hemb]
        rw [if_pos hd, hd]
        simp
    · have hsearch : search s q k
          = (topIndices (similarities rows q) k).map (resultAt s (similarities rows q)) := by
        unfold search
        simp only [hemb]
        rw [if_neg hd]
      constructor
      · rw [hsearch, List.length_map]
        exact hperm.length_eq.trans (List.length_range _)
      · rw [hsearch]
        exact hperm.map _
/-- C7 witness: the empty-collection case at a concrete store. -/
theorem c7_empty_and_topk_witness : search emptyStore [1] 3 = [] :=
  (c7_empty_and_topk emptyStore [1] 3).1 (Or.inl rfl)

end RagModel

namespace RagModel

/-- C1 amended: adding vectors whose dimension disagrees with the
already-stored vectors fails, but with NumPy's unwrapped `ValueError`
rather than `VectorStoreError`; consistent dimensions succeed. -/
theorem c1_amended (s : Store) (oldRows : List (List ℚ)) (documents : List String)
    (embeddings : List (List ℚ)) (metadatas : Option (List Meta)) (ids : Option (List String))
    (supply : List String) (hemb : s.embeddings = some oldRows)
    (hold : oldRows ≠ []) (hnew : embeddings ≠ []) (hdocs : documents ≠ [])
    (hrect : mkMatrix embeddings = .ok embeddings) :
    (width embeddings ≠ width oldRows →
      addDocuments s documents embeddings metadatas ids supply = .error .valueError)
    ∧ (width embeddings = width oldRows →
      ∃ p, addDocuments s documents embeddings metadatas ids supply = .ok p) := by
  have hde : ¬ documents.isEmpty = true := by
    simp only [List.isEmpty_iff]
    exact hdocs
  have key : addDocuments s documents embeddings metadatas ids supply
      = match vstack oldRows embeddings with
        | .error e => .error e
        | .ok stacked =>
          .ok (⟨s.documents ++ documents, some stacked,
            s.metadatas ++ metadatas.getD (documents.map fun _ => ([] : Meta)),
            s.ids ++ ids.getD (supply.take documents.length)⟩,
            ids.getD (supply.take documents.length)) := by
    unfold addDocuments
    rw [if_neg hde]
    simp only [hrect, hemb]
  constructor
  · intro hw
    rw [key]
    have hv : vstack oldRows embeddings = .error .valueError := by
      unfold vstack
      rw [if_neg]
      simp only [Bool.or_eq_true, beq_iff_eq, List.isEmpty_iff]
      push_neg
      exact ⟨⟨hold, hnew⟩, Ne.symm hw⟩
    rw [hv]
  · intro hw
    refine ⟨(⟨s.documents ++ documents, some (oldRows ++ embeddings),
        s.metadatas ++ metadatas.getD (documents.map fun _ => ([] : Meta)),
        s.ids ++ ids.getD (supply.take documents.length)⟩,
        ids.getD (supply.take documents.length)), ?_⟩
    rw [key]
    have hv : vstack oldRows embeddings = .ok (oldRows ++ embeddings) := by
      unfold vstack
      rw [if_pos]
      simp only [Bool.or_eq_true, beq_iff_eq]
      right
      exact hw.symm
    rw [hv]

/-- C1 witness: the mismatch branch of the amended theorem at a concrete
store holding 2-dimensional vectors and a new 3-dimensional vector. -/
theorem c1_amended_witness :
    addDocuments ⟨[r"d0"], some [[1, 0]], [[]], [r"i0"]⟩ [r"d1"] [[1, 2, 3]] none none [r"u1"]
      = .error .valueError :=
  (c1_amended ⟨[r"d0"], some [[1, 0]], [[]], [r"i0"]⟩ [[1, 0]] [r"d1"] [[1, 2, 3]]
      none none [r"u1"] rfl (List.cons_ne_nil _ _) (List.cons_ne_nil _ _)
      (List.cons_ne_nil _ _) (by simp [mkMatrix, width])).1 (by simp [width])

/-- C1 counterexample: the dimension-mismatch failure is a `ValueError`,
not the claimed `VectorStoreError`. -/
theorem c1_counterexample :
    addDocuments ⟨[r"d0"], some [[1, 0]], [[]], [r"i0"]⟩ [r"d1"] [[1, 2, 3]] none none [r"u1"]
      = .error .valueError
    ∧ (StoreExn.valueError == StoreExn.vectorStoreError) = false := by
  constructor
  · norm_num [addDocuments, mkMatrix, width, vstack]
  · decide

/-- C2: the code normalises by the vector norms unconditionally, so a
zero-magnitude stored vector or query vector yields an undefined (NaN,
modelled `none`) similarity score instead of the defined value the spec
requires. -/
theorem c2_zero_norm :
    search ⟨[r"z"], some [[0, 0]], [[]], [r"i0"]⟩ [1, 0] 1 = [⟨r"i0", r"z", [], none⟩]
    ∧ search ⟨[r"a"], some [[1, 0]], [[]], [r"i0"]⟩ [0, 0] 1 = [⟨r"i0", r"a", [], none⟩]
    ∧ simEntry [1, 0] [0, 0] = none
    ∧ simEntry [0, 0] [1, 0] = none := by
  refine ⟨?_, ?_, ?_, ?_⟩ <;>
    norm_num [search, similarities, simEntry, norm2, dot, topIndices, argsort,
      sortIdx, insertIdx, simLE, simValLE, resultAt]

/-- C9: adding documents to a fresh store, persisting, and reloading a
fresh instance over the same artifact reports `document_count` equal to
the number of texts, and the reloaded vectors equal the stored ones. -/
theorem c9_round_trip (texts : List String) (vecs : List (List ℚ)) (metas : Option (List Meta))
    (ids : Option (List String)) (supply : List String) (s' : Store) (rids : List String)
    (h : addDocuments emptyStore texts vecs metas ids supply = .ok (s', rids)) :
    documentCount (load (persist s' none)) = texts.length
    ∧ (texts ≠ [] → (load (persist s' none)).embeddings = some vecs) := by
  by_cases ht : texts.isEmpty = true
  · unfold addDocuments at h
    rw [if_pos ht] at h
    injection h with h1
    injection h1 with hs hr
    subst hs
    have htnil : texts = [] := by simpa [List.isEmpty_iff] using ht
    constructor
    · rw [htnil]; rfl
    · intro hne; exact absurd htnil hne
  · unfold addDocuments at h
    rw [if_neg ht] at h
    cases hm : mkMatrix vecs with
    | error e => rw [hm] at h; simp at h
    | ok newRows =>
      rw [hm] at h
      have hrows : newRows = vecs := by
        unfold mkMatrix at hm
        split_ifs at hm
        injection hm with hm
        exact hm.symm
      simp only [emptyStore] at h
      injection h with h1
      injection h1 with hs hr
      subst hs
      subst hrows
      have htnil : ¬ texts = [] := by simpa [List.isEmpty_iff] using ht
      constructor
      · simp [persist, load, documentCount, List.isEmpty_iff, htnil]
      · intro _
        simp [persist, load, List.isEmpty_iff, htnil]

/-- C9 witness: round trip of one record at a concrete store. -/
theorem c9_round_trip_witness :
    documentCount (load (persist ⟨[r"t"], some [[1]], [[]], [r"u"]⟩ none)) = 1 :=
  (c9_round_trip [r"t"] [[1]] none none [r"u"] ⟨[r"t"], some [[1]], [[]], [r"u"]⟩ [r"u"]
    (by simp [addDocuments, mkMatrix, width, emptyStore])).1

/-- C10: `add_documents` with an empty document list returns the empty
id list and leaves the whole store state unchanged. -/
theorem c10_empty_add (s : Store) (embeddings : List (List ℚ)) (metadatas : Option (List Meta))
    (ids : Option (List String)) (supply : List String) :
    addDocuments s [] embeddings metadatas ids supply = .ok (s, []) := by
  unfold addDocuments
  rfl

end RagModel
